import Mathlib

/-!
# Verification of the curricular-analytics-graph engine

Shallow embedding of the curriculum graph analytics and prerequisite
resolution engine of `curricular-analytics-graph`, together with proofs of
the specified properties: blocking factor, delay factor, complexity,
centrality, redundant-edge detection, term clamping, the asynchronous
prerequisite cache, failure propagation of the resolution pass, and the
course-statistics lookup.
-/

namespace CAG

/-- Term slot within an academic year (`'FA' | 'SP'` in `App.tsx`). -/
inductive Quarter where
  | FA
  | SP
deriving DecidableEq, Repr

/-- A directed course graph in arena form: a list of course ids and a
forwards-adjacency association list (course id to the ids of the courses
that directly depend on it).  The spec's design notes (§9) prescribe exactly
this arena-of-ids representation for the backwards/forwards relations. -/
structure Curriculum where
  courses : List Nat
  adjList : List (Nat × List Nat)
deriving DecidableEq, Repr

/-- Forward (dependent) neighbours of course `c`: looked up in the adjacency
association list, empty if absent. -/
def Curriculum.adj (cur : Curriculum) (c : Nat) : List Nat :=
  (Option.map Prod.snd (cur.adjList.find? (fun p => p.1 == c))).getD []

/-- The forwards edge relation: `Edge a b` holds when `b` directly depends
on `a` (there is a requisite edge `a → b`). -/
def Curriculum.Edge (cur : Curriculum) (a b : Nat) : Prop :=
  b ∈ cur.adj a

instance (cur : Curriculum) (a b : Nat) : Decidable (cur.Edge a b) :=
  inferInstanceAs (Decidable (b ∈ cur.adj a))

/-- Well-formedness: course ids are unique within a plan, and every
adjacency entry mentions only ids of the shared course collection. -/
def Curriculum.WF (cur : Curriculum) : Prop :=
  cur.courses.Nodup ∧
    ∀ p ∈ cur.adjList, p.1 ∈ cur.courses ∧ ∀ b ∈ p.2, b ∈ cur.courses

instance (cur : Curriculum) : Decidable cur.WF :=
  inferInstanceAs (Decidable (_ ∧ _))

theorem adj_mem_courses {cur : Curriculum} (hwf : cur.WF) {b c : Nat}
    (hb : b ∈ cur.adj c) : b ∈ cur.courses := by
  unfold Curriculum.adj at hb
  cases hfind : cur.adjList.find? (fun p => p.1 == c) with
  | none => simp [hfind] at hb
  | some p =>
    have hmem : p ∈ cur.adjList := List.mem_of_find?_eq_some hfind
    have := (hwf.2 p hmem).2
    simp only [hfind, Option.map_some', Option.getD_some] at hb
    exact this b hb

/-- One frontier-expansion step of the traversal with visited-set
deduplication: keep every visited course and add every forward neighbour of
a visited course. -/
def stepR (cur : Curriculum) (s : Finset Nat) : Finset Nat :=
  s ∪ s.biUnion (fun c => (cur.adj c).toFinset)

theorem subset_stepR (cur : Curriculum) (s : Finset Nat) : s ⊆ stepR cur s :=
  Finset.subset_union_left

theorem stepR_subset_univ {cur : Curriculum} (hwf : cur.WF) {s : Finset Nat}
    (hs : s ⊆ cur.courses.toFinset) : stepR cur s ⊆ cur.courses.toFinset := by
  intro x hx
  rcases Finset.mem_union.mp hx with h | h
  · exact hs h
  · rcases Finset.mem_biUnion.mp h with ⟨c, _, hxc⟩
    exact List.mem_toFinset.mpr (adj_mem_courses hwf (List.mem_toFinset.mp hxc))

/-- The set of courses reachable from `c` by following forward edges zero
or more times: iterate the frontier expansion enough times to stabilize. -/
def reachableFrom (cur : Curriculum) (c : Nat) : Finset Nat :=
  (stepR cur)^[cur.courses.length] {c}

theorem iterate_stepR_subset_univ {cur : Curriculum} (hwf : cur.WF) {c : Nat}
    (hc : c ∈ cur.courses) (n : Nat) :
    (stepR cur)^[n] {c} ⊆ cur.courses.toFinset := by
  induction n with
  | zero => simpa using List.mem_toFinset.mpr hc
  | succ n ih =>
    rw [Function.iterate_succ_apply']
    exact stepR_subset_univ hwf ih

theorem iterate_stepR_sound {cur : Curriculum} {c x : Nat} {n : Nat}
    (hx : x ∈ (stepR cur)^[n] {c}) : Relation.ReflTransGen cur.Edge c x := by
  induction n generalizing x with
  | zero =>
    simp only [Function.iterate_zero_apply, Finset.mem_singleton] at hx
    subst hx
    exact Relation.ReflTransGen.refl
  | succ n ih =>
    rw [Function.iterate_succ_apply'] at hx
    rcases Finset.mem_union.mp hx with h | h
    · exact ih h
    · rcases Finset.mem_biUnion.mp h with ⟨y, hy, hxy⟩
      exact Relation.ReflTransGen.tail (ih hy) (List.mem_toFinset.mp hxy)

theorem iterate_stepR_succ_of_eq {cur : Curriculum} {c : Nat} {n : Nat}
    (h : (stepR cur)^[n + 1] {c} = (stepR cur)^[n] {c}) (m : Nat) (hm : n ≤ m) :
    (stepR cur)^[m] {c} = (stepR cur)^[n] {c} := by
  induction m with
  | zero => cases Nat.le_zero.mp hm; rfl
  | succ m ih =>
    rcases Nat.lt_or_ge n (m + 1) with hlt | hge
    · have hnm : n ≤ m := Nat.lt_succ_iff.mp hlt
      rw [Function.iterate_succ_apply', ih hnm]
      exact (Function.iterate_succ_apply' (stepR cur) n {c}).symm.trans h
    · cases Nat.le_antisymm hm hge; rfl

theorem iterate_stepR_stab (cur : Curriculum) (c : Nat) :
    ∀ n : Nat, (stepR cur)^[n + 1] {c} = (stepR cur)^[n] {c} ∨
      n + 1 ≤ ((stepR cur)^[n] {c}).card := by
  intro n
  induction n with
  | zero =>
    right
    simp
  | succ n ih =>
    by_cases heq : (stepR cur)^[n + 1] {c} = (stepR cur)^[n] {c}
    · left
      calc (stepR cur)^[n + 1 + 1] {c}
          = stepR cur ((stepR cur)^[n + 1] {c}) :=
            Function.iterate_succ_apply' (stepR cur) (n + 1) {c}
        _ = stepR cur ((stepR cur)^[n] {c}) := by rw [heq]
        _ = (stepR cur)^[n + 1] {c} :=
            (Function.iterate_succ_apply' (stepR cur) n {c}).symm
    · right
      have hcard : n + 1 ≤ ((stepR cur)^[n] {c}).card := by
        rcases ih with h | h
        · exact absurd h heq
        · exact h
      have hsub : (stepR cur)^[n] {c} ⊆ (stepR cur)^[n + 1] {c} := by
        rw [Function.iterate_succ_apply']
        exact subset_stepR cur _
      have hss : (stepR cur)^[n] {c} ⊂ (stepR cur)^[n + 1] {c} :=
        ⟨hsub, fun hba => heq (Finset.Subset.antisymm hba hsub)⟩
      have := Finset.card_lt_card hss
      omega

theorem stepR_reachableFrom_eq {cur : Curriculum} (hwf : cur.WF) {c : Nat}
    (hc : c ∈ cur.courses) :
    stepR cur (reachableFrom cur c) = reachableFrom cur c := by
  unfold reachableFrom
  rcases iterate_stepR_stab cur c cur.courses.length with h | h
  · exact (Function.iterate_succ_apply' (stepR cur) _ {c}).symm.trans h
  · exfalso
    have hsub := iterate_stepR_subset_univ hwf hc cur.courses.length
    have hcard := Finset.card_le_card hsub
    have hlen : cur.courses.toFinset.card ≤ cur.courses.length :=
      cur.courses.toFinset_card_le
    omega

theorem self_mem_reachableFrom (cur : Curriculum) (c : Nat) :
    c ∈ reachableFrom cur c := by
  unfold reachableFrom
  induction cur.courses.length with
  | zero => simp
  | succ n ih =>
    rw [Function.iterate_succ_apply']
    exact subset_stepR cur _ ih

theorem mem_reachableFrom_of_rtg {cur : Curriculum} (hwf : cur.WF) {c x : Nat}
    (hc : c ∈ cur.courses) (h : Relation.ReflTransGen cur.Edge c x) :
    x ∈ reachableFrom cur c := by
  induction h with
  | refl => exact self_mem_reachableFrom cur c
  | tail _ hedge ih =>
    rw [← stepR_reachableFrom_eq hwf hc]
    refine Finset.mem_union.mpr (Or.inr ?_)
    exact Finset.mem_biUnion.mpr ⟨_, ih, List.mem_toFinset.mpr hedge⟩

/-- The iterated frontier expansion computes exactly the courses reachable
from `c` along forward edges (zero or more steps). -/
theorem mem_reachableFrom_iff {cur : Curriculum} (hwf : cur.WF) {c x : Nat}
    (hc : c ∈ cur.courses) :
    x ∈ reachableFrom cur c ↔ Relation.ReflTransGen cur.Edge c x :=
  ⟨iterate_stepR_sound, mem_reachableFrom_of_rtg hwf hc⟩

/-- Absence of a cycle through `c`: no forward neighbour of `c` can reach
`c` again.  Decidable, and equivalent to `¬ TransGen Edge c c` on a
well-formed curriculum. -/
def Curriculum.NoCycleAt (cur : Curriculum) (c : Nat) : Prop :=
  ∀ b ∈ cur.adj c, c ∉ reachableFrom cur b

instance (cur : Curriculum) (c : Nat) : Decidable (cur.NoCycleAt c) :=
  inferInstanceAs (Decidable (∀ b ∈ cur.adj c, c ∉ reachableFrom cur b))

theorem noCycleAt_iff {cur : Curriculum} (hwf : cur.WF) {c : Nat}
    (hc : c ∈ cur.courses) :
    cur.NoCycleAt c ↔ ¬Relation.TransGen cur.Edge c c := by
  constructor
  · intro h htg
    rcases Relation.TransGen.head'_iff.mp htg with ⟨b, hcb, hbc⟩
    exact h b hcb (mem_reachableFrom_of_rtg hwf (adj_mem_courses hwf hcb) hbc)
  · intro h b hcb hreach
    exact h (Relation.TransGen.head' hcb (iterate_stepR_sound hreach))

theorem reachableFrom_of_adj_nil {cur : Curriculum} {c : Nat}
    (h : cur.adj c = []) : reachableFrom cur c = {c} := by
  unfold reachableFrom
  have hfix : stepR cur {c} = {c} := by
    simp [stepR, h]
  exact Function.iterate_fixed hfix _

/-- Modelled from the spec: `GraphUtils.blockingFactor` (the Metrics Engine
module `src/graph-utils` is not among the provided sources; only its caller
in `App.tsx` is).  Per §4.1, the blocking factor of a course is "the sum of
`weight(c)` over every course `c` reachable from `course` by following
forward (dependent) edges zero or more times, excluding `course` itself",
computed by a traversal over the forwards relation with visited-set
deduplication. -/
def blockingFactor (cur : Curriculum) (c : Nat) (weight : Nat → ℚ) : ℚ :=
  ∑ x ∈ (reachableFrom cur c).erase c, weight x

theorem mem_erase_reachable_iff_transGen {cur : Curriculum} (hwf : cur.WF)
    {c : Nat} (hc : c ∈ cur.courses) (hac : cur.NoCycleAt c) (x : Nat) :
    x ∈ (reachableFrom cur c).erase c ↔ Relation.TransGen cur.Edge c x := by
  rw [Finset.mem_erase, mem_reachableFrom_iff hwf hc]
  constructor
  · rintro ⟨hne, hrtg⟩
    rcases Relation.ReflTransGen.cases_head hrtg with heq | ⟨b, hcb, hbx⟩
    · exact absurd heq.symm hne
    · exact Relation.TransGen.head' hcb hbx
  · intro htg
    refine ⟨fun hxc => ?_, htg.to_reflTransGen⟩
    subst hxc
    exact (noCycleAt_iff hwf hc).mp hac htg

/-- **C1**: for a well-formed DAG degree plan, every course and every
weight function, `blockingFactor(course, weight)` equals the sum of
`weight` over the set of distinct courses reachable from `course` by one
or more forward edges (the course itself excluded), each reachable course
counted exactly once; with the default constant-1 weight it is the count
of blocked courses, and a course with no forward edges has blocking
factor 0. -/
theorem blockingFactor_correct (cur : Curriculum) (c : Nat) (hwf : cur.WF)
    (hc : c ∈ cur.courses) (hac : cur.NoCycleAt c) :
    ∃ S : Finset Nat,
      (∀ x, x ∈ S ↔ Relation.TransGen cur.Edge c x) ∧
      (∀ weight : Nat → ℚ, blockingFactor cur c weight = ∑ x ∈ S, weight x) ∧
      blockingFactor cur c (fun _ => 1) = S.card ∧
      (cur.adj c = [] → ∀ weight, blockingFactor cur c weight = 0) := by
  refine ⟨(reachableFrom cur c).erase c,
    mem_erase_reachable_iff_transGen hwf hc hac, fun _ => rfl, ?_, ?_⟩
  · simp [blockingFactor]
  · intro hnil weight
    simp [blockingFactor, reachableFrom_of_adj_nil hnil]

/-- A diamond-shaped DAG: `0 → 1 → 3`, `0 → 2 → 3`. -/
def diamondCur : Curriculum :=
  ⟨[0, 1, 2, 3], [(0, [1, 2]), (1, [3]), (2, [3]), (3, [])]⟩

theorem blockingFactor_correct_witness :
    diamondCur.WF ∧ 0 ∈ diamondCur.courses ∧ diamondCur.NoCycleAt 0 ∧
      (∃ S : Finset Nat,
        (∀ x, x ∈ S ↔ Relation.TransGen diamondCur.Edge 0 x) ∧
        (∀ weight : Nat → ℚ,
          blockingFactor diamondCur 0 weight = ∑ x ∈ S, weight x) ∧
        blockingFactor diamondCur 0 (fun _ => 1) = S.card ∧
        (diamondCur.adj 0 = [] →
          ∀ weight, blockingFactor diamondCur 0 weight = 0)) :=
  ⟨by decide, by decide, by decide,
    blockingFactor_correct diamondCur 0 (by decide) (by decide) (by decide)⟩

/-- A root: a course with no backwards edges, i.e. no course lists it as a
forward neighbour. -/
def Curriculum.IsRoot (cur : Curriculum) (c : Nat) : Prop :=
  ∀ b ∈ cur.courses, c ∉ cur.adj b

instance (cur : Curriculum) (c : Nat) : Decidable (cur.IsRoot c) :=
  inferInstanceAs (Decidable (∀ b ∈ cur.courses, c ∉ cur.adj b))

/-- Global acyclicity of the requisite structure. -/
def Curriculum.Acyclic (cur : Curriculum) : Prop :=
  ∀ c ∈ cur.courses, cur.NoCycleAt c

instance (cur : Curriculum) : Decidable cur.Acyclic :=
  inferInstanceAs (Decidable (∀ c ∈ cur.courses, cur.NoCycleAt c))

/-- Number of courses reachable from `c`; the termination measure for path
enumeration. -/
def rank (cur : Curriculum) (c : Nat) : Nat :=
  (reachableFrom cur c).card

theorem rank_pos (cur : Curriculum) (c : Nat) : 0 < rank cur c :=
  Finset.card_pos.mpr ⟨c, self_mem_reachableFrom cur c⟩

theorem rank_le_length {cur : Curriculum} (hwf : cur.WF) {c : Nat}
    (hc : c ∈ cur.courses) : rank cur c ≤ cur.courses.length :=
  le_trans (Finset.card_le_card (iterate_stepR_subset_univ hwf hc _))
    cur.courses.toFinset_card_le

theorem rank_lt_of_adj {cur : Curriculum} (hwf : cur.WF) {c b : Nat}
    (hc : c ∈ cur.courses) (hb : b ∈ cur.adj c) (hac : cur.NoCycleAt c) :
    rank cur b < rank cur c := by
  have hbc : b ∈ cur.courses := adj_mem_courses hwf hb
  have hsub : reachableFrom cur b ⊆ reachableFrom cur c := by
    intro x hx
    exact mem_reachableFrom_of_rtg hwf hc
      (Relation.ReflTransGen.head hb (iterate_stepR_sound hx))
  have hne : c ∉ reachableFrom cur b := hac b hb
  exact Finset.card_lt_card ⟨hsub, fun hba =>
    hne (hba (self_mem_reachableFrom cur c))⟩

/-- Modelled from the spec: the recursive core of `GraphUtils.allPaths`
(`src/graph-utils` is not among the provided sources).  All maximal
forward paths starting at `c`: a leaf yields the singleton path, otherwise
every forward neighbour's maximal paths are extended by `c`.  The fuel
argument bounds the recursion depth; any value of at least the length of
the longest path gives the full enumeration. -/
def pathsFrom (cur : Curriculum) : Nat → Nat → List (List Nat)
  | 0, _ => []
  | Nat.succ n, c =>
    if cur.adj c = [] then [[c]]
    else (cur.adj c).flatMap (fun b => (pathsFrom cur n b).map (c :: ·))

/-- Modelled from the spec: `GraphUtils.allPaths` — "enumerates every
maximal path from a course with no backwards edges (a root) to a course
with no forwards edges (a leaf), traversing forwards edges." -/
def allPaths (cur : Curriculum) : List (List Nat) :=
  (cur.courses.filter (fun c => decide (cur.IsRoot c))).flatMap
    (pathsFrom cur (cur.courses.length + 1))

/-- A maximal forward path starting at `c`: it follows forward edges and
ends at a leaf. -/
def Curriculum.LeafPath (cur : Curriculum) (c : Nat) (p : List Nat) : Prop :=
  p.head? = some c ∧ p.Chain' cur.Edge ∧
    ∃ l, p.getLast? = some l ∧ cur.adj l = []

/-- A maximal root-to-leaf path. -/
def Curriculum.MaxPath (cur : Curriculum) (p : List Nat) : Prop :=
  p.Chain' cur.Edge ∧
    (∃ r, p.head? = some r ∧ r ∈ cur.courses ∧ cur.IsRoot r) ∧
    ∃ l, p.getLast? = some l ∧ cur.adj l = []

theorem length_le_rank {cur : Curriculum} (hwf : cur.WF)
    (hacy : cur.Acyclic) :
    ∀ (p : List Nat) (c : Nat), c ∈ cur.courses → p.head? = some c →
      p.Chain' cur.Edge → p.length ≤ rank cur c := by
  intro p
  induction p with
  | nil => intro c _ hh _; simp at hh
  | cons x rest ih =>
    intro c hc hh hchain
    simp only [List.head?_cons, Option.some.injEq] at hh
    subst hh
    cases rest with
    | nil => simpa using rank_pos cur x
    | cons y rest' =>
      have hxy : cur.Edge x y := (List.chain'_cons.mp hchain).1
      have hchain' : (y :: rest').Chain' cur.Edge :=
        (List.chain'_cons.mp hchain).2
      have hy : y ∈ cur.courses := adj_mem_courses hwf hxy
      have h1 : (y :: rest').length ≤ rank cur y := ih y hy rfl hchain'
      have h2 : rank cur y < rank cur x :=
        rank_lt_of_adj hwf hc hxy (hacy x hc)
      simp only [List.length_cons] at h1 ⊢
      omega

theorem pathsFrom_sound {cur : Curriculum} :
    ∀ {n : Nat} {c : Nat} {p : List Nat}, p ∈ pathsFrom cur n c →
      cur.LeafPath c p := by
  intro n
  induction n with
  | zero => intro c p hp; simp [pathsFrom] at hp
  | succ n ih =>
    intro c p hp
    rw [pathsFrom] at hp
    by_cases hnil : cur.adj c = []
    · rw [if_pos hnil] at hp
      simp only [List.mem_singleton] at hp
      subst hp
      exact ⟨rfl, List.chain'_singleton c, c, rfl, hnil⟩
    · rw [if_neg hnil] at hp
      rcases List.mem_flatMap.mp hp with ⟨b, hb, hq⟩
      rcases List.mem_map.mp hq with ⟨q, hqmem, rfl⟩
      obtain ⟨hh, hchain, l, hl, hleaf⟩ := ih hqmem
      cases q with
      | nil => simp at hh
      | cons y q' =>
        simp only [List.head?_cons, Option.some.injEq] at hh
        subst hh
        refine ⟨rfl, ?_, l, ?_, hleaf⟩
        · exact List.chain'_cons.mpr ⟨hb, hchain⟩
        · rwa [List.getLast?_cons_cons]

theorem pathsFrom_complete {cur : Curriculum} :
    ∀ (p : List Nat) (c : Nat) (n : Nat), cur.LeafPath c p →
      p.length ≤ n → p ∈ pathsFrom cur n c := by
  intro p
  induction p with
  | nil => intro c n hlp _; obtain ⟨hh, _, _⟩ := hlp; simp at hh
  | cons x rest ih =>
    intro c n hlp hlen
    obtain ⟨hh, hchain, l, hl, hleaf⟩ := hlp
    simp only [List.head?_cons, Option.some.injEq] at hh
    subst hh
    obtain ⟨m, rfl⟩ : ∃ m, n = m + 1 := by
      cases n with
      | zero => simp at hlen
      | succ m => exact ⟨m, rfl⟩
    cases rest with
    | nil =>
      simp only [List.getLast?_singleton, Option.some.injEq] at hl
      subst hl
      simp [pathsFrom, hleaf]
    | cons y rest' =>
      have hxy : cur.Edge x y := (List.chain'_cons.mp hchain).1
      have hchain' : (y :: rest').Chain' cur.Edge :=
        (List.chain'_cons.mp hchain).2
      have hnil : cur.adj x ≠ [] := fun h => by
        rw [Curriculum.Edge, h] at hxy; simp at hxy
      rw [pathsFrom, if_neg hnil]
      refine List.mem_flatMap.mpr ⟨y, hxy, List.mem_map.mpr
        ⟨y :: rest', ih y m ⟨rfl, hchain', l, ?_, hleaf⟩ ?_, rfl⟩⟩
      · rwa [List.getLast?_cons_cons] at hl
      · simpa using Nat.succ_le_succ_iff.mp hlen

/-- `allPaths` enumerates exactly the maximal root-to-leaf paths. -/
theorem mem_allPaths_iff {cur : Curriculum} (hwf : cur.WF)
    (hacy : cur.Acyclic) {p : List Nat} :
    p ∈ allPaths cur ↔ cur.MaxPath p := by
  constructor
  · intro hp
    rcases List.mem_flatMap.mp hp with ⟨r, hr, hpr⟩
    rcases List.mem_filter.mp hr with ⟨hrc, hroot⟩
    obtain ⟨hh, hchain, l, hl, hleaf⟩ := pathsFrom_sound hpr
    exact ⟨hchain, ⟨r, hh, hrc, of_decide_eq_true hroot⟩, l, hl, hleaf⟩
  · rintro ⟨hchain, ⟨r, hh, hrc, hroot⟩, l, hl, hleaf⟩
    refine List.mem_flatMap.mpr ⟨r, List.mem_filter.mpr
      ⟨hrc, decide_eq_true hroot⟩, ?_⟩
    refine pathsFrom_complete p r _ ⟨hh, hchain, l, hl, hleaf⟩ ?_
    have := length_le_rank hwf hacy p r hrc hh hchain
    have := rank_le_length hwf hrc
    omega

theorem find?_map_self {l : List Nat} {c : Nat} (f : Nat → List Nat)
    (hc : c ∈ l) :
    (l.map (fun x => (x, f x))).find? (fun p => p.1 == c) = some (c, f c) := by
  induction l with
  | nil => simp at hc
  | cons a rest ih =>
    by_cases hac : a = c
    · subst hac
      simp [List.find?_cons]
    · have hcr : c ∈ rest := by
        rcases List.mem_cons.mp hc with h | h
        · exact absurd h.symm hac
        · exact h
      simp only [List.map_cons]
      rw [List.find?_cons_of_neg _ (by simpa using hac)]
      exact ih hcr

/-- The transposed curriculum: the backwards relation, derived from the
forwards relation (the two are inverses of each other per §3). -/
def Curriculum.op (cur : Curriculum) : Curriculum :=
  ⟨cur.courses,
    cur.courses.map (fun c =>
      (c, cur.courses.filter (fun b => decide (c ∈ cur.adj b))))⟩

theorem op_adj_of_mem {cur : Curriculum} {c : Nat} (hc : c ∈ cur.courses) :
    cur.op.adj c = cur.courses.filter (fun b => decide (c ∈ cur.adj b)) := by
  unfold Curriculum.adj Curriculum.op
  rw [find?_map_self _ hc]
  rfl

theorem op_edge_iff {cur : Curriculum} {a b : Nat} :
    cur.op.Edge a b ↔ a ∈ cur.courses ∧ b ∈ cur.courses ∧ cur.Edge b a := by
  constructor
  · intro h
    unfold Curriculum.Edge Curriculum.adj at h
    cases hfind : (cur.op.adjList.find? (fun p => p.1 == a)) with
    | none => rw [hfind] at h; simp at h
    | some p =>
      rw [hfind] at h
      simp only [Option.map_some', Option.getD_some] at h
      have hpa : p.1 = a := by simpa using List.find?_some hfind
      have hpmem : p ∈ cur.op.adjList := List.mem_of_find?_eq_some hfind
      rcases List.mem_map.mp hpmem with ⟨x, hx, rfl⟩
      simp only at hpa h
      subst hpa
      rcases List.mem_filter.mp h with ⟨hbc, hedge⟩
      exact ⟨hx, hbc, of_decide_eq_true hedge⟩
  · rintro ⟨ha, hb, hedge⟩
    show b ∈ cur.op.adj a
    rw [op_adj_of_mem ha]
    exact List.mem_filter.mpr ⟨hb, decide_eq_true hedge⟩

theorem op_wf {cur : Curriculum} (hwf : cur.WF) : cur.op.WF := by
  refine ⟨hwf.1, ?_⟩
  intro p hp
  rcases List.mem_map.mp hp with ⟨x, hx, rfl⟩
  exact ⟨hx, fun b hb => (List.mem_filter.mp hb).1⟩

theorem op_acyclic {cur : Curriculum} (hwf : cur.WF) (hacy : cur.Acyclic) :
    cur.op.Acyclic := by
  intro c hc
  rw [noCycleAt_iff (op_wf hwf) hc]
  intro htg
  refine (noCycleAt_iff hwf hc).mp (hacy c hc) ?_
  exact Relation.transGen_swap.mp
    (htg.mono fun a b h => (op_edge_iff.mp h).2.2)

theorem isRoot_iff_op_adj_nil {cur : Curriculum} {c : Nat}
    (hc : c ∈ cur.courses) : cur.IsRoot c ↔ cur.op.adj c = [] := by
  rw [op_adj_of_mem hc, List.filter_eq_nil_iff]
  constructor
  · intro h b hb hmem
    exact h b hb (of_decide_eq_true (by simpa using hmem))
  · intro h b hb hmem
    exact h b hb (by simpa using hmem)

theorem exists_leafPath {cur : Curriculum} (hwf : cur.WF)
    (hacy : cur.Acyclic) :
    ∀ (k c : Nat), c ∈ cur.courses → rank cur c ≤ k →
      ∃ p, cur.LeafPath c p := by
  intro k
  induction k with
  | zero =>
    intro c _ hr
    exact absurd hr (by have := rank_pos cur c; omega)
  | succ k ih =>
    intro c hc hr
    by_cases hnil : cur.adj c = []
    · exact ⟨[c], rfl, List.chain'_singleton c, c, rfl, hnil⟩
    · obtain ⟨b, hb⟩ : ∃ b, b ∈ cur.adj c := by
        cases hadj : cur.adj c with
        | nil => exact absurd hadj hnil
        | cons b rest => exact ⟨b, by simp [hadj]⟩
      have hbc := adj_mem_courses hwf hb
      have hrb : rank cur b ≤ k := by
        have := rank_lt_of_adj hwf hc hb (hacy c hc)
        omega
      obtain ⟨q, hh, hchain, l, hl, hleaf⟩ := ih b hbc hrb
      cases q with
      | nil => simp at hh
      | cons y q' =>
        simp only [List.head?_cons, Option.some.injEq] at hh
        subst hh
        exact ⟨c :: y :: q', rfl, List.chain'_cons.mpr ⟨hb, hchain⟩, l,
          by rwa [List.getLast?_cons_cons], hleaf⟩

theorem exists_rootPath {cur : Curriculum} (hwf : cur.WF)
    (hacy : cur.Acyclic) {c : Nat} (hc : c ∈ cur.courses) :
    ∃ (q : List Nat) (r : Nat), q.head? = some r ∧ r ∈ cur.courses ∧
      cur.IsRoot r ∧ q.Chain' cur.Edge ∧ q.getLast? = some c := by
  obtain ⟨p, hh, hchain, l, hl, hleaf⟩ :=
    exists_leafPath (op_wf hwf) (op_acyclic hwf hacy) (rank cur.op c) c hc
      le_rfl
  have hlc : l ∈ cur.courses := by
    rcases List.getLast?_eq_some_iff.mp hl with ⟨ys, rfl⟩
    cases ys with
    | nil =>
      simp only [List.nil_append, List.head?_cons, Option.some.injEq] at hh
      subst hh
      exact hc
    | cons z zs =>
      obtain ⟨-, -, hlink⟩ := List.chain'_append.mp hchain
      cases hgl : (z :: zs).getLast? with
      | none => simp [List.getLast?_eq_some_iff] at hgl
      | some w =>
        have := hlink w (by simp [hgl]) l (by simp)
        exact (op_edge_iff.mp this).2.1
  refine ⟨p.reverse, l, ?_, hlc, ?_, ?_, ?_⟩
  · rw [List.head?_reverse, hl]
  · exact (isRoot_iff_op_adj_nil hlc).mpr hleaf
  · rw [List.chain'_reverse]
    exact hchain.imp fun a b h => (op_edge_iff.mp h).2.2
  · rw [List.getLast?_reverse, hh]

/-- Every course of a well-formed acyclic curriculum lies on some maximal
root-to-leaf path. -/
theorem exists_maxPath_through {cur : Curriculum} (hwf : cur.WF)
    (hacy : cur.Acyclic) {c : Nat} (hc : c ∈ cur.courses) :
    ∃ p, cur.MaxPath p ∧ c ∈ p := by
  obtain ⟨q, r, hqh, hrc, hroot, hqchain, hql⟩ := exists_rootPath hwf hacy hc
  obtain ⟨s, hsh, hschain, l, hsl, hleaf⟩ :=
    exists_leafPath hwf hacy (rank cur c) c hc le_rfl
  have hcq : c ∈ q := by
    rcases List.getLast?_eq_some_iff.mp hql with ⟨ys, rfl⟩
    simp
  cases s with
  | nil => simp at hsh
  | cons x s' =>
    simp only [List.head?_cons, Option.some.injEq] at hsh
    cases s' with
    | nil =>
      simp only [List.getLast?_singleton, Option.some.injEq] at hsl
      have hcl : c = l := by rw [← hsh, hsl]
      exact ⟨q, ⟨hqchain, ⟨r, hqh, hrc, hroot⟩, c, hql,
        by rw [hcl]; exact hleaf⟩, hcq⟩
    | cons y s'' =>
      have hcy : cur.Edge c y := hsh ▸ (List.chain'_cons.mp hschain).1
      have hchain'' : (y :: s'').Chain' cur.Edge :=
        (List.chain'_cons.mp hschain).2
      refine ⟨q ++ y :: s'', ⟨?_, ⟨r, ?_, hrc, hroot⟩, l, ?_, hleaf⟩,
        List.mem_append_left _ hcq⟩
      · refine List.chain'_append.mpr ⟨hqchain, hchain'', ?_⟩
        intro u hu v hv
        rw [hql] at hu
        simp only [Option.mem_def, Option.some.injEq] at hu
        simp only [List.head?_cons, Option.mem_def, Option.some.injEq] at hv
        subst hu; subst hv
        exact hcy
      · cases q with
        | nil => simp at hqh
        | cons a q' => simpa using hqh
      · rw [List.getLast?_append_of_ne_nil _ (by simp)]
        rwa [List.getLast?_cons_cons] at hsl

/-- Association-list lookup keyed by decidable equality; the engine's
course-keyed maps are embedded as association lists. -/
def lookupA {α β : Type _} [DecidableEq α] : List (α × β) → α → Option β
  | [], _ => none
  | (k, v) :: rest, a => if k = a then some v else lookupA rest a

theorem lookupA_map_self {α β : Type _} [DecidableEq α] {l : List α} {c : α}
    (f : α → β) (hc : c ∈ l) :
    lookupA (l.map (fun x => (x, f x))) c = some (f c) := by
  induction l with
  | nil => simp at hc
  | cons a rest ih =>
    simp only [List.map_cons, lookupA]
    by_cases hac : a = c
    · subst hac
      simp
    · rw [if_neg hac]
      refine ih ?_
      rcases List.mem_cons.mp hc with h | h
      · exact absurd h.symm hac
      · exact h

theorem le_foldr_max (L : List Nat) : ∀ x ∈ L, x ≤ L.foldr max 0 := by
  induction L with
  | nil => simp
  | cons a rest ih =>
    intro x hx
    rcases List.mem_cons.mp hx with rfl | h
    · exact le_max_left _ _
    · exact le_trans (ih x h) (le_max_right _ _)

theorem foldr_max_mem (L : List Nat) (h : L ≠ []) : L.foldr max 0 ∈ L := by
  induction L with
  | nil => exact absurd rfl h
  | cons a rest ih =>
    cases rest with
    | nil => simp
    | cons b rest' =>
      rcases max_choice a ((b :: rest').foldr max 0) with hm | hm
      · simp only [List.foldr_cons] at hm ⊢
        rw [hm]
        exact List.mem_cons_self _ _
      · simp only [List.foldr_cons] at hm ⊢
        rw [hm]
        exact List.mem_cons_of_mem _ (ih (by simp))

/-- Modelled from the spec: `GraphUtils.delayFactors` (the Metrics Engine
module `src/graph-utils` is not among the provided sources).  Per §4.1:
"for each course, the delay factor is the length (course count) of the
longest path, among all enumerated paths, that contains that course",
keyed by the courses occurring in the enumerated paths. -/
def delayFactors (paths : List (List Nat)) : List (Nat × Nat) :=
  paths.flatten.dedup.map (fun c =>
    (c,
      ((paths.filter (fun p => decide (c ∈ p))).map List.length).foldr max 0))

/-- **C2**: for a well-formed DAG degree plan, `delayFactors(allPaths(courses))`
contains every course of the input collection as a key, and maps each
course to the length (course count) of the longest enumerated maximal
root-to-leaf path containing it; this value is at least 1. -/
theorem delayFactors_correct (cur : Curriculum) (hwf : cur.WF)
    (hacy : cur.Acyclic) (c : Nat) (hc : c ∈ cur.courses) :
    (∀ p ∈ allPaths cur, cur.MaxPath p) ∧
      ∃ v : Nat,
        lookupA (delayFactors (allPaths cur)) c = some v ∧
        (∃ p ∈ allPaths cur, c ∈ p ∧ p.length = v) ∧
        (∀ p ∈ allPaths cur, c ∈ p → p.length ≤ v) ∧
        1 ≤ v := by
  refine ⟨fun p hp => (mem_allPaths_iff hwf hacy).mp hp, ?_⟩
  obtain ⟨p₀, hmax, hcp₀⟩ := exists_maxPath_through hwf hacy hc
  have hp₀ : p₀ ∈ allPaths cur := (mem_allPaths_iff hwf hacy).mpr hmax
  have hp₀L : p₀ ∈ (allPaths cur).filter (fun p => decide (c ∈ p)) :=
    List.mem_filter.mpr ⟨hp₀, decide_eq_true hcp₀⟩
  have hkey : c ∈ (allPaths cur).flatten.dedup :=
    List.mem_dedup.mpr (List.mem_flatten.mpr ⟨p₀, hp₀, hcp₀⟩)
  refine ⟨(((allPaths cur).filter
      (fun p => decide (c ∈ p))).map List.length).foldr max 0,
    lookupA_map_self _ hkey, ?_, ?_, ?_⟩
  · have hne : ((allPaths cur).filter
        (fun p => decide (c ∈ p))).map List.length ≠ [] := by
      simp only [ne_eq, List.map_eq_nil_iff]
      exact fun h => by rw [h] at hp₀L; simp at hp₀L
    have hmem := foldr_max_mem _ hne
    rcases List.mem_map.mp hmem with ⟨p, hpL, hlen⟩
    rcases List.mem_filter.mp hpL with ⟨hpa, hcp⟩
    exact ⟨p, hpa, of_decide_eq_true hcp, hlen⟩
  · intro p hpa hcp
    exact le_foldr_max _ _ (List.mem_map.mpr
      ⟨p, List.mem_filter.mpr ⟨hpa, decide_eq_true hcp⟩, rfl⟩)
  · have h1 : p₀.length ≤ _ := le_foldr_max _ _ (List.mem_map.mpr ⟨p₀, hp₀L, rfl⟩)
    have h2 : 0 < p₀.length := List.length_pos.mpr (List.ne_nil_of_mem hcp₀)
    omega

theorem delayFactors_correct_witness :
    diamondCur.WF ∧ diamondCur.Acyclic ∧ 1 ∈ diamondCur.courses ∧
      ((∀ p ∈ allPaths diamondCur, diamondCur.MaxPath p) ∧
        ∃ v : Nat,
          lookupA (delayFactors (allPaths diamondCur)) 1 = some v ∧
          (∃ p ∈ allPaths diamondCur, 1 ∈ p ∧ p.length = v) ∧
          (∀ p ∈ allPaths diamondCur, 1 ∈ p → p.length ≤ v) ∧
          1 ≤ v) :=
  ⟨by decide, by decide, by decide,
    delayFactors_correct diamondCur (by decide) (by decide) 1 (by decide)⟩

/-- Academic calendar system (`'semester' | 'quarter'`). -/
inductive CalSystem where
  | semester
  | quarter
deriving DecidableEq, Repr

/-- Modelled from the spec: `GraphUtils.complexities` (the Metrics Engine
module `src/graph-utils` is not among the provided sources).  Per §4.1:
"base complexity is `blockingFactor(course) + delayFactor(course)`"; the
`system` parameter is a pass-through classification — "the engine itself
applies no numeric conversion between systems". -/
def complexities (bf df : List (Nat × ℚ)) (system : CalSystem) :
    List (Nat × ℚ) :=
  bf.map (fun p => (p.1, p.2 + (lookupA df p.1).getD 0))

theorem lookupA_complexities {bf df : List (Nat × ℚ)} {c : Nat} {b : ℚ}
    (hb : lookupA bf c = some b) (system : CalSystem) :
    lookupA (complexities bf df system) c =
      some (b + (lookupA df c).getD 0) := by
  induction bf with
  | nil => simp [lookupA] at hb
  | cons p rest ih =>
    simp only [complexities, List.map_cons, lookupA] at hb ⊢
    by_cases hpc : p.1 = c
    · subst hpc
      rw [if_pos rfl] at hb ⊢
      simp only [Option.some.injEq] at hb
      rw [hb]
    · rw [if_neg hpc] at hb ⊢
      exact ih hb

/-- **C3**: for every course `c` in the input mappings and either calendar
system, `complexities(blockingFactors, delayFactors, system)[c]` equals
`blockingFactors[c] + delayFactors[c]`, and the `system` parameter causes
no numeric change to the result. -/
theorem complexities_correct (bf df : List (Nat × ℚ)) (c : Nat) (b d : ℚ)
    (hb : lookupA bf c = some b) (hd : lookupA df c = some d) :
    (∀ system : CalSystem,
      lookupA (complexities bf df system) c = some (b + d)) ∧
      complexities bf df CalSystem.semester =
        complexities bf df CalSystem.quarter := by
  refine ⟨fun system => ?_, rfl⟩
  rw [lookupA_complexities hb system, hd, Option.getD_some]

theorem complexities_correct_witness :
    lookupA [((0 : Nat), (2 : ℚ)), (1, 0)] 0 = some 2 ∧
      lookupA [((0 : Nat), (3 : ℚ)), (1, 1)] 0 = some 3 ∧
      ((∀ system : CalSystem,
        lookupA (complexities [((0 : Nat), (2 : ℚ)), (1, 0)]
          [(0, 3), (1, 1)] system) 0 = some (2 + 3)) ∧
        complexities [((0 : Nat), (2 : ℚ)), (1, 0)] [(0, 3), (1, 1)]
            CalSystem.semester =
          complexities [((0 : Nat), (2 : ℚ)), (1, 0)] [(0, 3), (1, 1)]
            CalSystem.quarter) :=
  ⟨rfl, rfl, complexities_correct _ _ 0 2 3 rfl rfl⟩

/-- Modelled from the spec: the redundant-edge check of the Requisite
Resolver (`app/util/updatePrereqs` is not among the provided sources).
Per §4.2 step 6, redundancy "is computed after all direct edges for a
course are known, by checking forward reachability from each other direct
requirement of `A`". -/
def redundant (cur : Curriculum) (a b : Nat) : Bool :=
  decide (∃ m ∈ cur.adj a, m ≠ b ∧ b ∈ reachableFrom cur m)

/-- A forward path from `a` to `b` along requisite edges that does not use
the edge `a → b` itself (its consecutive pairs avoid `(a, b)`). -/
def AvoidingPath (cur : Curriculum) (a b : Nat) (p : List Nat) : Prop :=
  p.head? = some a ∧ p.getLast? = some b ∧ p.Chain' cur.Edge ∧
    (a, b) ∉ p.zip p.tail

theorem fst_mem_of_mem_zip_tail {x y : Nat} :
    ∀ {p : List Nat}, (x, y) ∈ p.zip p.tail → x ∈ p := by
  intro p
  induction p with
  | nil => simp
  | cons u rest ih =>
    cases rest with
    | nil => simp
    | cons v rest' =>
      intro h
      simp only [List.tail_cons, List.zip_cons_cons] at h
      rcases List.mem_cons.mp h with heq | h
      · rw [Prod.mk.injEq] at heq
        exact heq.1 ▸ List.mem_cons_self _ _
      · exact List.mem_cons_of_mem _ (ih h)

theorem rtg_of_mem_chain {cur : Curriculum} :
    ∀ (q : List Nat) (m x : Nat), q.head? = some m → q.Chain' cur.Edge →
      x ∈ q → Relation.ReflTransGen cur.Edge m x := by
  intro q
  induction q with
  | nil => intro m x hh; simp at hh
  | cons u rest ih =>
    intro m x hh hchain hx
    simp only [List.head?_cons, Option.some.injEq] at hh
    rw [← hh]
    rcases List.mem_cons.mp hx with rfl | hx
    · exact Relation.ReflTransGen.refl
    · cases rest with
      | nil => simp at hx
      | cons v rest' =>
        have hmv : cur.Edge u v := (List.chain'_cons.mp hchain).1
        have hchain' : (v :: rest').Chain' cur.Edge :=
          (List.chain'_cons.mp hchain).2
        exact Relation.ReflTransGen.head hmv (ih v x rfl hchain' hx)

/-- The triangle of §8: direct requisites `A → B`, `A → C`, `C → B` with
`A = 0`, `B = 1`, `C = 2`. -/
def triCur : Curriculum :=
  ⟨[0, 1, 2], [(0, [1, 2]), (1, []), (2, [1])]⟩

/-- **C4**: the Requisite Resolver flags an edge `A → B` as redundant
exactly when another path of direct requisite edges leads from `A` to `B`
without using that edge; and on the triangle `A→B`, `A→C`, `C→B` the edge
`A→B` is flagged redundant while `A→C` and `C→B` are not. -/
theorem redundant_correct (cur : Curriculum) (a b : Nat) (hwf : cur.WF)
    (ha : a ∈ cur.courses) (hab : b ∈ cur.adj a) (hac : cur.NoCycleAt a) :
    (redundant cur a b = true ↔ ∃ p, AvoidingPath cur a b p) ∧
      redundant triCur 0 1 = true ∧ redundant triCur 0 2 = false ∧
      redundant triCur 2 1 = false := by
  refine ⟨?_, by decide, by decide, by decide⟩
  rw [redundant, decide_eq_true_iff]
  constructor
  · rintro ⟨m, hm, hmb, hbr⟩
    have hrtg : Relation.ReflTransGen cur.Edge m b := iterate_stepR_sound hbr
    obtain ⟨l, hchain, hlast⟩ := List.exists_chain_of_relationReflTransGen hrtg
    refine ⟨a :: m :: l, rfl, ?_, ?_, ?_⟩
    · rw [List.getLast?_cons_cons,
        List.getLast?_eq_getLast _ (List.cons_ne_nil m l)]
      exact congrArg some hlast
    · exact List.chain'_cons.mpr ⟨hm, hchain⟩
    · intro hmem
      simp only [List.tail_cons, List.zip_cons_cons] at hmem
      rcases List.mem_cons.mp hmem with heq | hmem
      · rw [Prod.mk.injEq] at heq
        exact hmb heq.2.symm
      · have haq : a ∈ m :: l := fst_mem_of_mem_zip_tail hmem
        have : Relation.ReflTransGen cur.Edge m a :=
          rtg_of_mem_chain (m :: l) m a rfl hchain haq
        exact hac m hm
          (mem_reachableFrom_of_rtg hwf (adj_mem_courses hwf hm) this)
  · rintro ⟨p, hh, hl, hchain, havoid⟩
    cases p with
    | nil => simp at hh
    | cons x rest =>
      simp only [List.head?_cons, Option.some.injEq] at hh
      rw [hh] at hchain hl havoid
      cases rest with
      | nil =>
        simp only [List.getLast?_singleton, Option.some.injEq] at hl
        rw [← hl] at hab
        exact absurd (self_mem_reachableFrom cur a) (hac a hab)
      | cons m rest' =>
        have hm : cur.Edge a m := (List.chain'_cons.mp hchain).1
        have hchain' : (m :: rest').Chain' cur.Edge :=
          (List.chain'_cons.mp hchain).2
        have hmb : m ≠ b := by
          intro heq
          subst heq
          exact havoid (by simp)
        have hbmem : b ∈ m :: rest' := by
          rw [List.getLast?_cons_cons] at hl
          rcases List.getLast?_eq_some_iff.mp hl with ⟨ys, hys⟩
          rw [hys]
          simp
        exact ⟨m, hm, hmb, mem_reachableFrom_of_rtg hwf
          (adj_mem_courses hwf hm)
          (rtg_of_mem_chain (m :: rest') m b rfl hchain' hbmem)⟩

theorem redundant_correct_witness :
    triCur.WF ∧ 0 ∈ triCur.courses ∧ 1 ∈ triCur.adj 0 ∧
      triCur.NoCycleAt 0 ∧
      ((redundant triCur 0 1 = true ↔ ∃ p, AvoidingPath triCur 0 1 p) ∧
        redundant triCur 0 1 = true ∧ redundant triCur 0 2 = false ∧
        redundant triCur 2 1 = false) :=
  ⟨by decide, by decide, by decide, by decide,
    redundant_correct triCur 0 1 (by decide) (by decide) (by decide)
      (by decide)⟩

/-- A canonical term key: a quarter and a calendar year (e.g. `FA24`). -/
structure TermKey where
  quarter : Quarter
  year : Nat
deriving DecidableEq, Repr

/-- Linear position of a term key in time; within one calendar year the
spring term precedes the fall term. -/
def TermKey.idx (t : TermKey) : Nat :=
  2 * t.year + (if t.quarter = Quarter.FA then 1 else 0)

/-- Metadata bounds: the earliest and latest term keys for which requisite
data exists (`min_prereq_term` / `max_prereq_term` of `metadata.json`). -/
structure PrereqTermBounds where
  min_prereq_term : TermKey
  max_prereq_term : TermKey
deriving DecidableEq, Repr

/-- Modelled from the spec: `getTermClamped` of `app/util/terms` (not
among the provided sources; only its callers in `App.tsx` are).  Per §4.3:
"computes the course's nominal term from `referenceYear + course.year` and
`course.quarter`, then clamps the result into
`[bounds.earliest, bounds.latest]`". -/
def getTermClamped (referenceYear : Nat) (courseYear : Nat)
    (courseQuarter : Quarter) (bounds : PrereqTermBounds) : TermKey :=
  let nominal : TermKey := ⟨courseQuarter, referenceYear + courseYear⟩
  if nominal.idx < bounds.min_prereq_term.idx then bounds.min_prereq_term
  else if bounds.max_prereq_term.idx < nominal.idx then
    bounds.max_prereq_term
  else nominal

/-- **C6**: `termFor(referenceYear, course, bounds)` computes the nominal
term from `referenceYear + course.year` and `course.quarter` and clamps it
into `[bounds.earliest, bounds.latest]`: a nominal term before the
earliest bound yields the earliest, one after the latest yields the
latest, and otherwise the nominal term itself; hence every course maps to
a term key within the bounds.  With bounds `(FA20, FA24)` a course
nominally in `FA19` resolves to `FA20`. -/
theorem getTermClamped_correct (referenceYear courseYear : Nat)
    (courseQuarter : Quarter) (bounds : PrereqTermBounds)
    (hb : bounds.min_prereq_term.idx ≤ bounds.max_prereq_term.idx) :
    ((TermKey.mk courseQuarter (referenceYear + courseYear)).idx <
        bounds.min_prereq_term.idx →
      getTermClamped referenceYear courseYear courseQuarter bounds =
        bounds.min_prereq_term) ∧
    (bounds.max_prereq_term.idx <
        (TermKey.mk courseQuarter (referenceYear + courseYear)).idx →
      getTermClamped referenceYear courseYear courseQuarter bounds =
        bounds.max_prereq_term) ∧
    (bounds.min_prereq_term.idx ≤
        (TermKey.mk courseQuarter (referenceYear + courseYear)).idx →
      (TermKey.mk courseQuarter (referenceYear + courseYear)).idx ≤
        bounds.max_prereq_term.idx →
      getTermClamped referenceYear courseYear courseQuarter bounds =
        TermKey.mk courseQuarter (referenceYear + courseYear)) ∧
    bounds.min_prereq_term.idx ≤
      (getTermClamped referenceYear courseYear courseQuarter bounds).idx ∧
    (getTermClamped referenceYear courseYear courseQuarter bounds).idx ≤
      bounds.max_prereq_term.idx ∧
    getTermClamped 19 0 Quarter.FA
        ⟨⟨Quarter.FA, 20⟩, ⟨Quarter.FA, 24⟩⟩ = ⟨Quarter.FA, 20⟩ := by
  refine ⟨?_, ?_, ?_, ?_, ?_, by decide⟩
  · intro h
    unfold getTermClamped
    dsimp only
    rw [if_pos h]
  · intro h
    unfold getTermClamped
    dsimp only
    rw [if_neg (by omega), if_pos h]
  · intro h h'
    unfold getTermClamped
    dsimp only
    rw [if_neg (by omega), if_neg (by omega)]
  · unfold getTermClamped
    dsimp only
    split_ifs with h1 h2 <;> omega
  · unfold getTermClamped
    dsimp only
    split_ifs with h1 h2 <;> omega

theorem getTermClamped_correct_witness :
    (TermKey.mk Quarter.FA 20).idx ≤ (TermKey.mk Quarter.FA 24).idx ∧
      (((TermKey.mk Quarter.FA (19 + 0)).idx <
          (TermKey.mk Quarter.FA 20).idx →
        getTermClamped 19 0 Quarter.FA
            ⟨⟨Quarter.FA, 20⟩, ⟨Quarter.FA, 24⟩⟩ = ⟨Quarter.FA, 20⟩) ∧
        ((TermKey.mk Quarter.FA 24).idx <
            (TermKey.mk Quarter.FA (19 + 0)).idx →
          getTermClamped 19 0 Quarter.FA
              ⟨⟨Quarter.FA, 20⟩, ⟨Quarter.FA, 24⟩⟩ = ⟨Quarter.FA, 24⟩) ∧
        ((TermKey.mk Quarter.FA 20).idx ≤
            (TermKey.mk Quarter.FA (19 + 0)).idx →
          (TermKey.mk Quarter.FA (19 + 0)).idx ≤
            (TermKey.mk Quarter.FA 24).idx →
          getTermClamped 19 0 Quarter.FA
              ⟨⟨Quarter.FA, 20⟩, ⟨Quarter.FA, 24⟩⟩ =
            TermKey.mk Quarter.FA (19 + 0)) ∧
        (TermKey.mk Quarter.FA 20).idx ≤
          (getTermClamped 19 0 Quarter.FA
            ⟨⟨Quarter.FA, 20⟩, ⟨Quarter.FA, 24⟩⟩).idx ∧
        (getTermClamped 19 0 Quarter.FA
            ⟨⟨Quarter.FA, 20⟩, ⟨Quarter.FA, 24⟩⟩).idx ≤
          (TermKey.mk Quarter.FA 24).idx ∧
        getTermClamped 19 0 Quarter.FA
            ⟨⟨Quarter.FA, 20⟩, ⟨Quarter.FA, 24⟩⟩ = ⟨Quarter.FA, 20⟩) :=
  ⟨by decide, getTermClamped_correct 19 0 Quarter.FA
    ⟨⟨Quarter.FA, 20⟩, ⟨Quarter.FA, 24⟩⟩ (by decide)⟩

/-- A per-term requisite-expression table
(`Record<string, string[][]>`): course name → OR-alternatives, each an
AND-list of required course names. -/
abbrev ReqTable : Type := List (String × List (List String))

/-- The prerequisite cache (`PrereqCache` in `App.tsx`): term key → raw
requisite-expression table. -/
abbrev PrereqCache : Type := List (TermKey × ReqTable)

/-- `App.tsx` `requireTerm`: "if the term is already cached, complete with
no fetch; otherwise fetch that term's table and merge it into the cache."
The asynchronous fetch is modelled as a function of the term key; the
returned flag records whether a fetch was issued. -/
def requireTerm (fetchTerm : TermKey → ReqTable) (cache : PrereqCache)
    (term : TermKey) : PrereqCache × Bool :=
  if (lookupA cache term).isSome then (cache, false)
  else ((term, fetchTerm term) :: cache, true)

/-- **C7**: the term cache only grows: calling `requireTerm` on an
already-cached term issues no fetch and leaves the cache unchanged; on a
missing term, the completed call stores the fetched table under that key;
and no completion removes or alters the entry stored under any other term
key. -/
theorem requireTerm_correct (fetchTerm : TermKey → ReqTable)
    (cache : PrereqCache) (term : TermKey) :
    ((lookupA cache term).isSome →
      requireTerm fetchTerm cache term = (cache, false)) ∧
      (lookupA cache term = none →
        (requireTerm fetchTerm cache term).2 = true ∧
          lookupA (requireTerm fetchTerm cache term).1 term =
            some (fetchTerm term)) ∧
      ∀ t, t ≠ term →
        lookupA (requireTerm fetchTerm cache term).1 t = lookupA cache t := by
  refine ⟨?_, ?_, ?_⟩
  · intro h
    simp [requireTerm, h]
  · intro h
    simp [requireTerm, h, lookupA]
  · intro t ht
    by_cases h : (lookupA cache term).isSome
    · simp [requireTerm, h]
    · simp only [requireTerm, if_neg h, lookupA]
      rw [if_neg fun he => ht he.symm]

theorem requireTerm_correct_witness :
    lookupA ([] : PrereqCache) ⟨Quarter.FA, 24⟩ = none ∧
      (requireTerm (fun _ => [("B", [["A"]])]) [] ⟨Quarter.FA, 24⟩).2 =
        true ∧
      lookupA (requireTerm (fun _ => [("B", [["A"]])]) []
          ⟨Quarter.FA, 24⟩).1 ⟨Quarter.FA, 24⟩ =
        some ((fun _ => [("B", [["A"]])]) (⟨Quarter.FA, 24⟩ : TermKey)) :=
  ⟨rfl,
    (requireTerm_correct (fun _ => [("B", [["A"]])]) [] ⟨Quarter.FA, 24⟩).2.1
      rfl⟩

/-- Requisite edge type (`RequisiteType` of `app/types`); per §4.2 step 7
an edge defaults to prerequisite when its source data carries no tag. -/
inductive RequisiteType where
  | prereq
  | coreq
  | strictCoreq
deriving DecidableEq, Repr

/-- A course of the degree plan (`LinkedCourse` in `App.tsx`), with the
backwards/forwards relations stored as id lists per the arena design of
§9. -/
structure LinkedCourse where
  year : Nat
  quarter : Quarter
  id : Nat
  name : String
  credits : Nat
  backwards : List Nat
  forwards : List Nat
deriving DecidableEq, Repr

/-- The identity/term data of a course, independent of its adjacency. -/
structure CourseData where
  year : Nat
  quarter : Quarter
  id : Nat
  name : String
  credits : Nat
deriving DecidableEq, Repr

def LinkedCourse.data (c : LinkedCourse) : CourseData :=
  ⟨c.year, c.quarter, c.id, c.name, c.credits⟩

/-- A requisite edge with its classification flags (§3). -/
structure REdge where
  source : Nat
  target : Nat
  direct : Bool
  redundant : Bool
deriving DecidableEq, Repr

/-- First plan course with the given name: matching is by exact name
equality, first occurrence in plan order (§4.2 step 4). -/
def findCourseId (courses : List CourseData) (reqName : String) :
    Option Nat :=
  (courses.find? (fun c => c.name == reqName)).map (fun c => c.id)

/-- Modelled from the spec: the per-course edge derivation of the
Requisite Resolver (§4.2 steps 1–5; `app/util/updatePrereqs` is not among
the provided sources).  The course's term table is looked up in the cache
(a missing term is fail-open: no requisites), its requisite expression is
looked up by name (absence means no requisites), each alternative's
required names are matched against the plan, the first satisfiable
alternative yields the direct requisite pairs, and the remaining
alternatives yield indirect pairs. -/
def courseReqPairs (courses : List CourseData) (cache : PrereqCache)
    (referenceYear : Nat) (bounds : PrereqTermBounds) (c : CourseData) :
    List (Nat × Nat) × List (Nat × Nat) :=
  let table :=
    (lookupA cache
      (getTermClamped referenceYear c.year c.quarter bounds)).getD []
  let expr := (lookupA table c.name).getD []
  let altMatches := expr.map (fun alt => alt.filterMap (findCourseId courses))
  let chosen := (altMatches.find? (fun l => !l.isEmpty)).getD []
  let others := (altMatches.flatten.filter (fun s => !chosen.contains s)).dedup
  (chosen.map (fun s => (s, c.id)), others.map (fun s => (s, c.id)))

/-- Modelled from the spec: the edge-rebuild step of the Requisite
Resolver (§4.2 steps 5–7).  Direct edges come from each course's chosen
alternative; each direct edge is flagged redundant by checking forward
reachability over the direct-edge graph; indirect edges carry
`direct = false`. -/
def computeEdges (courses : List CourseData) (cache : PrereqCache)
    (referenceYear : Nat) (bounds : PrereqTermBounds) : List REdge :=
  let pairs := courses.map (courseReqPairs courses cache referenceYear bounds)
  let directAll := (pairs.map Prod.fst).flatten
  let indirectAll := (pairs.map Prod.snd).flatten
  let ids := courses.map (fun c => c.id)
  let dCur : Curriculum :=
    ⟨ids, ids.map (fun i =>
      (i, (directAll.filter (fun e => e.1 == i)).map (fun e => e.2)))⟩
  directAll.map (fun e => ⟨e.1, e.2, true, redundant dCur e.1 e.2⟩) ++
    indirectAll.map (fun e => ⟨e.1, e.2, false, false⟩)

/-- Replace a course's backwards/forwards relations from the rebuilt edge
set (the resolver's wholesale replacement, §4.2). -/
def updateAdj (edges : List REdge) (c : LinkedCourse) : LinkedCourse :=
  { c with
    backwards := (edges.filter (fun e => e.target == c.id)).map
      (fun e => e.source),
    forwards := (edges.filter (fun e => e.source == c.id)).map
      (fun e => e.target) }

structure ResolveResult where
  degreePlan : List (List LinkedCourse)
  edges : List REdge
  reqTypes : List ((Nat × Nat) × RequisiteType)
deriving DecidableEq, Repr

/-- Modelled from the spec: the Requisite Resolver
`resolve(plan, cache, referenceYear, bounds) → (newPlan, edgeTypes)` of
§4.2, implemented by `app/util/updatePrereqs` (not among the provided
sources).  Courses and edges are rebuilt wholesale from the course data,
the term cache, the reference year and the bounds; every course's
backwards/forwards relations are fully replaced; untagged edges default to
type prerequisite. -/
def updatePrereqs (plan : List (List LinkedCourse)) (cache : PrereqCache)
    (referenceYear : Nat) (bounds : PrereqTermBounds) : ResolveResult :=
  let edges :=
    computeEdges (plan.flatten.map LinkedCourse.data) cache referenceYear
      bounds
  { degreePlan := plan.map (List.map (updateAdj edges))
    edges := edges
    reqTypes := edges.map (fun e =>
      ((e.source, e.target), RequisiteType.prereq)) }

theorem data_updateAdj (edges : List REdge) (c : LinkedCourse) :
    (updateAdj edges c).data = c.data := rfl

theorem updateAdj_updateAdj (edges : List REdge) (c : LinkedCourse) :
    updateAdj edges (updateAdj edges c) = updateAdj edges c := by
  cases c
  rfl

theorem plan_data_invariant (edges : List REdge)
    (plan : List (List LinkedCourse)) :
    ((plan.map (List.map (updateAdj edges))).flatten).map LinkedCourse.data =
      plan.flatten.map LinkedCourse.data := by
  induction plan with
  | nil => rfl
  | cons t rest ih =>
    simp only [List.map_cons, List.flatten_cons, List.map_append, ih,
      List.map_map]
    rfl

theorem map_map_updateAdj (edges : List REdge)
    (plan : List (List LinkedCourse)) :
    (plan.map (List.map (updateAdj edges))).map
        (List.map (updateAdj edges)) =
      plan.map (List.map (updateAdj edges)) := by
  rw [List.map_map]
  refine List.map_congr_left fun t _ => ?_
  show (t.map (updateAdj edges)).map (updateAdj edges) = _
  rw [List.map_map]
  exact List.map_congr_left fun c _ => updateAdj_updateAdj edges c

/-- **C5**: the Requisite Resolver is idempotent: re-running it on the
plan it produced, with the cache, reference year and bounds unchanged,
yields exactly the same degree plan, the same requisite edges (including
their direct and redundant flags) and the same edge-type map. -/
theorem updatePrereqs_idempotent (plan : List (List LinkedCourse))
    (cache : PrereqCache) (referenceYear : Nat) (bounds : PrereqTermBounds) :
    updatePrereqs
        (updatePrereqs plan cache referenceYear bounds).degreePlan cache
        referenceYear bounds =
      updatePrereqs plan cache referenceYear bounds := by
  unfold updatePrereqs
  dsimp only
  rw [plan_data_invariant, map_map_updateAdj]

/-- The React component state relevant to a resolution pass: the degree
plan, the edge-type map and the prerequisite cache. -/
structure AppState where
  degreePlan : List (List LinkedCourse)
  reqTypes : List ((Nat × Nat) × RequisiteType)
  prereqCache : PrereqCache
deriving DecidableEq, Repr

/-- `requireTerm` with a fallible fetch: a cached term completes at once;
otherwise the fetched table is inserted, and a failed fetch rejects. -/
def requireTermE (fetchTerm : TermKey → Except String ReqTable)
    (cache : PrereqCache) (term : TermKey) : Except String PrereqCache :=
  if (lookupA cache term).isSome then Except.ok cache
  else
    match fetchTerm term with
    | Except.error e => Except.error e
    | Except.ok tbl => Except.ok ((term, tbl) :: cache)

/-- Ensure every term of the list is cached (the `Promise.all` over
`requireTerm` in `onTooltipTitleChange`); any failed fetch rejects the
whole pass. -/
def requireTerms (fetchTerm : TermKey → Except String ReqTable)
    (cache : PrereqCache) : List TermKey → Except String PrereqCache
  | [] => Except.ok cache
  | t :: ts =>
    match requireTermE fetchTerm cache t with
    | Except.error e => Except.error e
    | Except.ok cache' => requireTerms fetchTerm cache' ts

/-- The distinct clamped term keys touched by the plan (the
`new Set(...)` over `getTermClamped` in `onTooltipTitleChange`). -/
def allTermsOf (plan : List (List LinkedCourse)) (year : Nat)
    (bounds : PrereqTermBounds) : List TermKey :=
  (plan.flatten.map (fun c =>
    getTermClamped year c.year c.quarter bounds)).dedup

/-- `App.tsx` `onTooltipTitleChange`: rename the course, await the fetch
of every term touched by the plan (rejecting if any fetch fails), then
resolve the renamed plan and install the new degree plan and edge types.
The resolution and installation run only after all fetches succeed. -/
def onTooltipTitleChange (fetchTerm : TermKey → Except String ReqTable)
    (year : Nat) (bounds : PrereqTermBounds) (st : AppState)
    (courseId : Nat) (courseName : String) : Except String AppState :=
  let plan' := st.degreePlan.map (List.map (fun c =>
    if c.id = courseId then { c with name := courseName } else c))
  match requireTerms fetchTerm st.prereqCache
      (allTermsOf st.degreePlan year bounds) with
  | Except.error e => Except.error e
  | Except.ok cache' =>
    let u := updatePrereqs plan' cache' year bounds
    Except.ok ⟨u.degreePlan, u.reqTypes, cache'⟩

/-- The calling harness: a rejected resolution pass leaves the React
state untouched. -/
def applyTitleChange (fetchTerm : TermKey → Except String ReqTable)
    (year : Nat) (bounds : PrereqTermBounds) (st : AppState)
    (courseId : Nat) (courseName : String) : AppState × Option String :=
  match onTooltipTitleChange fetchTerm year bounds st courseId courseName
    with
  | Except.error e => (st, some e)
  | Except.ok st' => (st', none)

theorem requireTerms_error {fetchTerm : TermKey → Except String ReqTable}
    {t : TermKey} {e : String} (hf : fetchTerm t = Except.error e) :
    ∀ (ts : List TermKey) (cache : PrereqCache), t ∈ ts →
      lookupA cache t = none →
      ∃ err, requireTerms fetchTerm cache ts = Except.error err := by
  intro ts
  induction ts with
  | nil =>
    intro cache h
    simp at h
  | cons u ts' ih =>
    intro cache ht hmiss
    by_cases heq : u = t
    · subst heq
      refine ⟨e, ?_⟩
      simp [requireTerms, requireTermE, hmiss, hf]
    · simp only [requireTerms]
      cases hre : requireTermE fetchTerm cache u with
      | error e' => exact ⟨e', rfl⟩
      | ok cache' =>
        refine ih cache' ?_ ?_
        · rcases List.mem_cons.mp ht with h | h
          · exact absurd h.symm heq
          · exact h
        · unfold requireTermE at hre
          by_cases hc : (lookupA cache u).isSome
          · rw [if_pos hc] at hre
            injection hre with hre
            rw [← hre]
            exact hmiss
          · rw [if_neg hc] at hre
            cases hft : fetchTerm u with
            | error e'' => rw [hft] at hre; exact absurd hre (by simp)
            | ok tbl =>
              rw [hft] at hre
              injection hre with hre
              rw [← hre]
              simp only [lookupA, if_neg heq]
              exact hmiss

/-- **C8**: if any per-term data fetch required by a resolution pass
fails, the pass is surfaced to its caller as a rejected operation and the
degree plan and edge-type map are left entirely unchanged: the resolver
never installs a partially-mutated degree plan. -/
theorem fetch_failure_rejects (fetchTerm : TermKey → Except String ReqTable)
    (year : Nat) (bounds : PrereqTermBounds) (st : AppState)
    (courseId : Nat) (courseName : String) (t : TermKey) (e : String)
    (ht : t ∈ allTermsOf st.degreePlan year bounds)
    (hmiss : lookupA st.prereqCache t = none)
    (hf : fetchTerm t = Except.error e) :
    (∃ err, onTooltipTitleChange fetchTerm year bounds st courseId
        courseName = Except.error err) ∧
      (applyTitleChange fetchTerm year bounds st courseId
          courseName).1.degreePlan = st.degreePlan ∧
      (applyTitleChange fetchTerm year bounds st courseId
          courseName).1.reqTypes = st.reqTypes ∧
      (applyTitleChange fetchTerm year bounds st courseId
          courseName).2.isSome = true := by
  obtain ⟨err, herr⟩ :=
    requireTerms_error hf (allTermsOf st.degreePlan year bounds)
      st.prereqCache ht hmiss
  have hout : onTooltipTitleChange fetchTerm year bounds st courseId
      courseName = Except.error err := by
    unfold onTooltipTitleChange
    rw [herr]
  refine ⟨⟨err, hout⟩, ?_, ?_, ?_⟩ <;>
    · unfold applyTitleChange
      rw [hout]
      first
        | rfl
        | skip

/-- A one-course state whose term is uncached, for exercising the failing
fetch. -/
def stFail : AppState :=
  ⟨[[⟨0, Quarter.FA, 0, "A", 4, [], []⟩]], [], []⟩

theorem fetch_failure_rejects_witness :
    (⟨Quarter.FA, 20⟩ : TermKey) ∈
        allTermsOf stFail.degreePlan 20 ⟨⟨Quarter.FA, 20⟩, ⟨Quarter.FA, 24⟩⟩ ∧
      lookupA stFail.prereqCache ⟨Quarter.FA, 20⟩ = none ∧
      ((fun _ => Except.error "network") (⟨Quarter.FA, 20⟩ : TermKey) :
          Except String ReqTable) = Except.error "network" ∧
      ((∃ err, onTooltipTitleChange (fun _ => Except.error "network") 20
          ⟨⟨Quarter.FA, 20⟩, ⟨Quarter.FA, 24⟩⟩ stFail 0 "B" =
            Except.error err) ∧
        (applyTitleChange (fun _ => Except.error "network") 20
            ⟨⟨Quarter.FA, 20⟩, ⟨Quarter.FA, 24⟩⟩ stFail 0
            "B").1.degreePlan = stFail.degreePlan ∧
        (applyTitleChange (fun _ => Except.error "network") 20
            ⟨⟨Quarter.FA, 20⟩, ⟨Quarter.FA, 24⟩⟩ stFail 0
            "B").1.reqTypes = stFail.reqTypes ∧
        (applyTitleChange (fun _ => Except.error "network") 20
            ⟨⟨Quarter.FA, 20⟩, ⟨Quarter.FA, 24⟩⟩ stFail 0
            "B").2.isSome = true) :=
  ⟨by decide, rfl, rfl,
    fetch_failure_rejects (fun _ => Except.error "network") 20
      ⟨⟨Quarter.FA, 20⟩, ⟨Quarter.FA, 24⟩⟩ stFail 0 "B" ⟨Quarter.FA, 20⟩
      "network" (by decide) rfl rfl⟩

theorem delayFactors_lookup {cur : Curriculum} (hwf : cur.WF)
    (hacy : cur.Acyclic) {c : Nat} (hc : c ∈ cur.courses) :
    lookupA (delayFactors (allPaths cur)) c =
      some ((((allPaths cur).filter (fun p => decide (c ∈ p))).map
        List.length).foldr max 0) := by
  obtain ⟨p₀, hmax, hcp₀⟩ := exists_maxPath_through hwf hacy hc
  have hp₀ : p₀ ∈ allPaths cur := (mem_allPaths_iff hwf hacy).mpr hmax
  exact lookupA_map_self _
    (List.mem_dedup.mpr (List.mem_flatten.mpr ⟨p₀, hp₀, hcp₀⟩))

/-- Modelled from the spec: the centrality computation consumed by the
rendering layer (`src/index`, not among the provided sources; `App.tsx`
only receives the computed value in `tooltipContent`).  Per §4.1:
"centrality(course) = (sum of lengths of all paths through course) −
blockingFactor(course) − delayFactor(course), floored at 0." -/
def centrality (cur : Curriculum) (c : Nat) : ℚ :=
  max 0
    ((((allPaths cur).filter (fun p => decide (c ∈ p))).map
        (fun p => (p.length : ℚ))).sum -
      blockingFactor cur c (fun _ => 1) -
      ((lookupA (delayFactors (allPaths cur)) c).getD 0 : ℕ))

/-- **C9**: for every course of a well-formed DAG plan, the centrality
equals the sum of the lengths of all enumerated maximal paths containing
the course, minus its blocking factor, minus its delay factor, with the
result floored at 0: it is never negative, and whenever the difference is
non-negative the floor is inactive. -/
theorem centrality_correct (cur : Curriculum) (c : Nat) (hwf : cur.WF)
    (hacy : cur.Acyclic) (hc : c ∈ cur.courses) :
    ∃ dfv : ℕ,
      lookupA (delayFactors (allPaths cur)) c = some dfv ∧
      centrality cur c =
        max 0 ((((allPaths cur).filter (fun p => decide (c ∈ p))).map
            (fun p => (p.length : ℚ))).sum -
          blockingFactor cur c (fun _ => 1) - dfv) ∧
      0 ≤ centrality cur c ∧
      (blockingFactor cur c (fun _ => 1) + (dfv : ℚ) ≤
          (((allPaths cur).filter (fun p => decide (c ∈ p))).map
            (fun p => (p.length : ℚ))).sum →
        centrality cur c =
          (((allPaths cur).filter (fun p => decide (c ∈ p))).map
              (fun p => (p.length : ℚ))).sum -
            blockingFactor cur c (fun _ => 1) - dfv) := by
  refine ⟨_, delayFactors_lookup hwf hacy hc, ?_, le_max_left 0 _, ?_⟩
  · unfold centrality
    rw [delayFactors_lookup hwf hacy hc, Option.getD_some]
  · intro hle
    unfold centrality
    rw [delayFactors_lookup hwf hacy hc, Option.getD_some]
    exact max_eq_right (by linarith)

theorem centrality_correct_witness :
    diamondCur.WF ∧ diamondCur.Acyclic ∧ 0 ∈ diamondCur.courses ∧
      (∃ dfv : ℕ,
        lookupA (delayFactors (allPaths diamondCur)) 0 = some dfv ∧
        centrality diamondCur 0 =
          max 0 ((((allPaths diamondCur).filter
              (fun p => decide (0 ∈ p))).map
              (fun p => (p.length : ℚ))).sum -
            blockingFactor diamondCur 0 (fun _ => 1) - dfv) ∧
        0 ≤ centrality diamondCur 0 ∧
        (blockingFactor diamondCur 0 (fun _ => 1) + (dfv : ℚ) ≤
            (((allPaths diamondCur).filter (fun p => decide (0 ∈ p))).map
              (fun p => (p.length : ℚ))).sum →
          centrality diamondCur 0 =
            (((allPaths diamondCur).filter (fun p => decide (0 ∈ p))).map
                (fun p => (p.length : ℚ))).sum -
              blockingFactor diamondCur 0 (fun _ => 1) - dfv)) :=
  ⟨by decide, by decide, by decide,
    centrality_correct diamondCur 0 (by decide) (by decide) (by decide)⟩

/-- The statistics record returned per course (`CourseStats` in
`App.tsx`); rates are rationals, `none` encodes JavaScript `null`. -/
structure CourseStats where
  dfq : Option ℚ
  dfqForDepartment : Bool
  equityGaps : List String
  equityGapsForDepartment : Bool
  frequency : Option (List String)
  waitlist : Option ℚ
deriving DecidableEq, Repr

/-- Per-course DFQ rates (`CourseDfwRates` in `app/index.tsx`): an index
signature of major-subject keys plus the required `allMajors` entry. -/
structure CourseDfwRates where
  byMajor : List (String × ℚ)
  allMajors : ℚ
deriving DecidableEq, Repr

/-- JavaScript property access on a `CourseDfwRates` object: the
`allMajors` entry is a property of the same object as the index
signature. -/
def CourseDfwRates.get (r : CourseDfwRates) (key : String) : Option ℚ :=
  if key = "allMajors" then some r.allMajors else lookupA r.byMajor key

def isUpperAlpha (ch : Char) : Bool :=
  'A' ≤ ch && ch ≤ 'Z'

/-- Match the course-code pattern `([A-Z]+) *([0-9]+[A-Z]*)` at the start
of the character list, returning the two capture groups.  The pattern has
no productive backtracking (shrinking a greedy run can never enable the
following mandatory character class), so greedy runs are exact. -/
def matchCodeAt (cs : List Char) : Option (List Char × List Char) :=
  let letters := cs.takeWhile isUpperAlpha
  if letters.isEmpty then none
  else
    let rest1 := (cs.dropWhile isUpperAlpha).dropWhile (fun ch => ch == ' ')
    let digits := rest1.takeWhile Char.isDigit
    if digits.isEmpty then none
    else
      let tailLetters := (rest1.dropWhile Char.isDigit).takeWhile isUpperAlpha
      some (letters, digits ++ tailLetters)

/-- Leftmost match of the course-code pattern. -/
def findCodeMatch : List Char → Option (List Char × List Char)
  | [] => none
  | c :: cs =>
    match matchCodeAt (c :: cs) with
    | some m => some m
    | none => findCodeMatch cs

/-- The course code extracted in `getStats`:
`courseName.toUpperCase().match(...)` joined as `match[1] + match[2]`,
empty when there is no match. -/
def courseCode (courseName : String) : String :=
  match findCodeMatch courseName.toUpper.toList with
  | some (letters, rest) => ⟨letters ++ rest⟩
  | none => ""

/-- `app/index.tsx` `getStats`: DFQ rates are looked up by the raw course
name, equity gaps / frequency / waitlist by the parsed course code.
`dfq` falls back from the major-specific rate to the all-majors rate to
null; `dfqForDepartment` records whether the major-specific rate existed;
equity gaps fall back from the major-specific entry to `allMajors`, an
empty entry meaning no gaps.  The imported JSON tables and the
`majorSubject` URL parameter are passed as parameters. -/
def getStats (dfqRatesByMajor : List (String × CourseDfwRates))
    (equityGapsByMajor : List (String × List (String × String)))
    (frequencies : List (String × List String))
    (waitlists : List (String × ℚ)) (majorSubject : String)
    (courseName : String) : CourseStats :=
  let code := courseCode courseName
  let dfqRates := lookupA dfqRatesByMajor courseName
  let gapsRow := lookupA equityGapsByMajor code
  { dfq :=
      match dfqRates with
      | none => none
      | some r =>
        match r.get majorSubject with
        | some v => some v
        | none => some r.allMajors
    dfqForDepartment :=
      (dfqRates.map (fun r => (r.get majorSubject).isSome)).getD false
    equityGaps :=
      match gapsRow with
      | none => []
      | some row =>
        match lookupA row majorSubject with
        | some s => if s = "" then [] else s.splitOn " "
        | none =>
          match lookupA row "allMajors" with
          | some s => if s = "" then [] else s.splitOn " "
          | none => []
    equityGapsForDepartment :=
      (gapsRow.map (fun row => (lookupA row majorSubject).isSome)).getD
        false
    frequency := lookupA frequencies code
    waitlist := lookupA waitlists code }

/-- **C10**: `getStats` returns `dfqForDepartment == true` exactly when a
major-specific DFQ rate exists for the queried major subject, and
whenever `dfqForDepartment` is true the returned `dfq` is that
major-specific rate and is not null. -/
theorem getStats_dfqForDepartment
    (dfqRatesByMajor : List (String × CourseDfwRates))
    (equityGapsByMajor : List (String × List (String × String)))
    (frequencies : List (String × List String))
    (waitlists : List (String × ℚ)) (majorSubject courseName : String) :
    ((getStats dfqRatesByMajor equityGapsByMajor frequencies waitlists
        majorSubject courseName).dfqForDepartment = true ↔
      ∃ r v, lookupA dfqRatesByMajor courseName = some r ∧
        r.get majorSubject = some v) ∧
      ∀ r v, lookupA dfqRatesByMajor courseName = some r →
        r.get majorSubject = some v →
        (getStats dfqRatesByMajor equityGapsByMajor frequencies waitlists
            majorSubject courseName).dfq = some v ∧
          (getStats dfqRatesByMajor equityGapsByMajor frequencies
            waitlists majorSubject courseName).dfq ≠ none := by
  constructor
  · unfold getStats
    dsimp only
    cases hr : lookupA dfqRatesByMajor courseName with
    | none =>
      simp only [Option.map_none', Option.getD_none]
      constructor
      · intro h
        exact absurd h (by simp)
      · rintro ⟨r, v, hr', -⟩
        exact absurd hr' (by simp [hr])
    | some r =>
      simp only [Option.map_some', Option.getD_some, Option.isSome_iff_exists]
      constructor
      · rintro ⟨v, hv⟩
        exact ⟨r, v, rfl, hv⟩
      · rintro ⟨r', v, hr', hv⟩
        injection hr' with hr'
        subst hr'
        exact ⟨v, hv⟩
  · intro r v hr hv
    unfold getStats
    dsimp only
    rw [hr]
    dsimp only
    rw [hv]
    exact ⟨rfl, by simp⟩

/-- A one-row DFQ-rate table with a major-specific rate for `CS`. -/
def dfqTableEx : List (String × CourseDfwRates) :=
  [("CSE 100", ⟨[("CS", 1 / 10)], 2 / 10⟩)]

theorem getStats_dfqForDepartment_witness :
    ((getStats dfqTableEx [] [] [] "CS"
        "CSE 100").dfqForDepartment = true ↔
      ∃ r v, lookupA dfqTableEx "CSE 100" = some r ∧
        r.get "CS" = some v) ∧
      ∀ r v,
        lookupA dfqTableEx "CSE 100" = some r →
        r.get "CS" = some v →
        (getStats dfqTableEx [] [] [] "CS"
            "CSE 100").dfq = some v ∧
          (getStats dfqTableEx [] [] [] "CS"
            "CSE 100").dfq ≠ none :=
  getStats_dfqForDepartment dfqTableEx [] [] [] "CS" "CSE 100"

end CAG
